import Mathlib

/-!
Verification of a small Rust numerics repository: a Newton-style n-th-root
solver (`src/main.rs`) and a dense polynomial library (`src/polynomials.rs`).
The `f64` values of the source are modelled as exact rationals (`ℚ`); the
source's `Vec<f64>` becomes `List ℚ` and its bounded `while` loops become
fuel-structural recursions whose fuel provably dominates the loop count.
-/

/-- Dense polynomial (`struct Polynom`, polynomials.rs): `coeficients[i]` is
the coefficient of the degree-`i` term.  `derive(PartialEq)` on a single-field
struct over `Vec<f64>` is structural equality, matched by `DecidableEq` here. -/
structure Polynom where
  coeficients : List ℚ
deriving DecidableEq

namespace Polynom

/-- `Polynom::zero` (polynomials.rs 9-13). -/
def zero : Polynom := ⟨[0]⟩

/-- `Polynom::single` (polynomials.rs 15-19): the monomial `X^n`, built as
`(0..=n).map(|i| if i < n { 0.0 } else { 1.0 })`. -/
def single (n : ℕ) : Polynom :=
  ⟨(List.range (n + 1)).map (fun i => if i < n then (0 : ℚ) else 1)⟩

/-- `Polynom::initialize` (polynomials.rs 21-25).  Its two `assert!`s —
non-empty input, non-zero last element — are modelled as the `none` branch. -/
def fromCoefficients (coefs : List ℚ) : Option Polynom :=
  if 0 < coefs.length ∧ coefs.getLast? ≠ some 0 then some ⟨coefs⟩ else none

/-- `Polynom::degree` (polynomials.rs 27-29): `len - 1`. -/
def degree (p : Polynom) : ℕ := p.coeficients.length - 1

/-- `Polynom::at` (polynomials.rs 31-33); the source indexes in bounds only,
modelled totally with default `0`. -/
def coeffAt (p : Polynom) (i : ℕ) : ℚ := p.coeficients.getD i 0

/-- Loop of `Polynom::trim` (polynomials.rs 55-60): pop the last coefficient
while the length exceeds `1` and that coefficient is exactly `0`.  The loop
runs at most `length` times; it is made structural on that fuel. -/
def trimGo : ℕ → List ℚ → List ℚ
  | 0, l => l
  | f + 1, l =>
      if 1 < l.length ∧ l.getLast? = some 0 then trimGo f l.dropLast else l

/-- `Polynom::trim` (polynomials.rs 55-60). -/
def trim (p : Polynom) : Polynom := ⟨trimGo p.coeficients.length p.coeficients⟩

/-- `Polynom::set_at` (polynomials.rs 35-39): overwrite slot `i`, then trim. -/
def set_at (p : Polynom) (i : ℕ) (v : ℚ) : Polynom :=
  trim ⟨p.coeficients.set i v⟩

/-- `Polynom::plus` (polynomials.rs 41-46): add `x` to every coefficient,
then trim. -/
def plus (p : Polynom) (x : ℚ) : Polynom :=
  trim ⟨p.coeficients.map (fun c => c + x)⟩

/-- `Polynom::by` (polynomials.rs 48-53): multiply every coefficient by `x`;
the source does NOT re-trim here.  (`by` is reserved in Lean; the spec's name
for this operation is `scale`.) -/
def scale (p : Polynom) (x : ℚ) : Polynom :=
  ⟨p.coeficients.map (fun c => c * x)⟩

/-- `impl Add for Polynom` (polynomials.rs 94-115): order the operands by
degree, sum up to the shorter degree, copy the longer tail; no re-trim. -/
def add (a b : Polynom) : Polynom :=
  let mm := if b.degree ≤ a.degree then (b, a) else (a, b)
  ⟨(List.range (mm.2.degree + 1)).map (fun i =>
    if i ≤ mm.1.degree then mm.1.coeffAt i + mm.2.coeffAt i else mm.2.coeffAt i)⟩

instance : Add Polynom := ⟨add⟩

/-- `impl Mul for Polynom` (polynomials.rs 117-131): start from `single d`
with its top slot reset to `0` (a zero-filled vector of length `d + 1`),
accumulate `a[i] * b[j]` into slot `i + j` with the double loop, then trim. -/
def mul (a b : Polynom) : Polynom :=
  let d := a.degree + b.degree
  let start := (single d).coeficients.set d 0
  trim ⟨(List.range (a.degree + 1)).foldl (fun acc i =>
    (List.range (b.degree + 1)).foldl (fun acc2 j =>
      acc2.set (i + j) (acc2.getD (i + j) 0 + a.coeffAt i * b.coeffAt j)) acc) start⟩

instance : Mul Polynom := ⟨mul⟩

/-- Invariant 1 of the spec (canonical form): length at least `1`, and a
non-zero last (leading) coefficient whenever the length exceeds `1`. -/
def canonicalP (p : Polynom) : Prop :=
  1 ≤ p.coeficients.length ∧
    (1 < p.coeficients.length → p.coeficients.getLast? ≠ some 0)

instance : DecidablePred canonicalP := fun p => by
  unfold canonicalP; infer_instance

/-- Spec-side description of multiplication (spec section 4.3, written from
the spec's words for the refinement claim): the coefficient of the product at
index `k` is the sum of `a[i] * b[j]` over all `(i, j)` with `i + j = k`, on
a sequence of length `deg a + deg b + 1`. -/
def convSpec (a b : Polynom) : List ℚ :=
  (List.range (a.degree + b.degree + 1)).map (fun k =>
    ∑ i ∈ Finset.range (a.degree + 1), ∑ j ∈ Finset.range (b.degree + 1),
      if i + j = k then a.coeffAt i * b.coeffAt j else 0)

/-- Decimal digits after the point of `num / den` (for `num < den`),
fuel-bounded; models how Rust's `to_string` on `f64` prints the terminating
fractional expansions reachable in this library. -/
def fracDigits : ℕ → ℕ → ℕ → String
  | 0, _, _ => ""
  | f + 1, num, den =>
      if num = 0 then ""
      else Nat.repr (num * 10 / den) ++ fracDigits f (num * 10 % den) den

/-- Rendering of a non-negative rational the way Rust's `to_string` on `f64`
prints it: integral values print with no decimal point, other values print
the digits of their terminating expansion after a `.`. -/
def ratStr (q : ℚ) : String :=
  if q.den = 1 then toString q.num
  else toString (q.num / (q.den : ℤ)) ++ "." ++
    fracDigits 64 (q.num.toNat % q.den) q.den

/-- `impl Display for Polynom` (polynomials.rs 63-92): walk the indices from
the degree down to `0`, pushing for each non-zero coefficient a sign (`+`
only for non-leading positive terms, `-` for negative ones), then the
magnitude (skipped when its absolute value is exactly `1` on a term of
positive degree), then `X` for positive degree and `^i` above degree `1`;
an empty accumulator renders as the literal `0`. -/
def fmtP (p : Polynom) : String :=
  let d := p.degree
  let res := ((List.range (d + 1)).reverse).foldl (fun acc i =>
    let x := p.coeffAt i
    if x ≠ 0 then
      acc ++ (if i < d ∧ 0 < x then "+" else if x < 0 then "-" else "")
          ++ (if ¬(|x| = 1) ∨ i = 0 then ratStr |x| else "")
          ++ (if 0 < i then "X" else "")
          ++ (if 1 < i then "^" ++ Nat.repr i else "")
    else acc) ""
  if res.length = 0 then "0" else res

/-- One printed term, written from the words of spec section 4.4: skip zero
coefficients; `-` for negative terms, `+` for non-leading positive terms;
omit a magnitude of exactly `1` on terms of degree at least `1` but print
the constant term's magnitude even when it is `1`; degree-1 terms print as
`X`, higher degrees as `X^k`. -/
def termSpec (p : Polynom) (i : ℕ) : String :=
  let x := p.coeffAt i
  if x = 0 then ""
  else (if x < 0 then "-" else if i < p.degree then "+" else "")
    ++ (if |x| = 1 ∧ 1 ≤ i then "" else ratStr |x|)
    ++ (if i = 0 then "" else if i = 1 then "X" else "X^" ++ Nat.repr i)

/-- The rendering described by spec section 4.4: terms highest degree first,
the all-zero polynomial rendered as the literal `0`. -/
def fmtSpec (p : Polynom) : String :=
  let s := String.join (((List.range (p.degree + 1)).reverse).map (termSpec p))
  if s = "" then "0" else s

end Polynom

namespace Roots

/-- `EPSILON` (main.rs 33): the approximation threshold `1e-20`. -/
def EPSILON : ℚ := 1 / 10 ^ 20

/-- `MAX_ITERATIONS` (main.rs 36). -/
def MAX_ITERATIONS : ℕ := 1000000

/-- Loop of `power` (main.rs 18-30), made structural on a fuel that bounds
the iteration count: the counter at least halves every round, so any fuel
`f` with `count < 2 ^ f` is never exhausted. -/
def powerGo : ℕ → ℚ → ℚ → ℕ → ℚ
  | 0, result, _, _ => result
  | f + 1, result, y, count =>
      if count = 0 then result
      else powerGo f (if count % 2 = 1 then result * y else result) (y * y)
        (count / 2)

/-- `power` (main.rs 18-30): binary exponentiation, `x` to the power `n`. -/
def power (x : ℚ) (n : ℕ) : ℚ := powerGo n 1 x n

/-- `basic_next` (main.rs 48-51): the Newton-Raphson step for
`P(X) = X^n - v`. -/
def basic_next (v : ℚ) (n : ℕ) (p : ℚ) : ℚ :=
  p - ((power p n - v) / ((n : ℚ) * power p (n - 1)))

/-- The sequence of estimates produced by a step function from the signed
seed of `root` (main.rs 76-84): entry `0` is the seed `±1`, entry `k + 1`
is the step function applied to entry `k`. -/
def rootSeq (next : ℚ × ℕ × ℚ → ℚ) (x : ℚ) (n : ℕ) : ℕ → ℚ
  | 0 => if 0 ≤ x then 1 else -1
  | k + 1 => next (x, n, rootSeq next x n k)

/-- The `while` loop of `root` (main.rs 82-86), made structural on a fuel:
the guard `i <= MAX_ITERATIONS` caps the loop, so `MAX_ITERATIONS + 1` fuel
from the entry value `i = 1` is never exhausted. -/
def rootGo (next : ℚ × ℕ × ℚ → ℚ) (x : ℚ) (n : ℕ) : ℕ → ℚ → ℚ → ℕ → ℚ
  | 0, _, u, _ => u
  | f + 1, p, u, i =>
      if EPSILON ≤ |(u - p) / p| ∧ i ≤ MAX_ITERATIONS
      then rootGo next x n f u (next (x, n, u)) (i + 1)
      else u

/-- `root` (main.rs 66-88): return `0` for `|x|` at most `EPSILON`,
otherwise iterate the injected step function from the signed unit seed
until the relative change drops below `EPSILON` or the iteration budget is
exhausted, and return the last estimate. -/
def root (x : ℚ) (n : ℕ) (next : ℚ × ℕ × ℚ → ℚ) : ℚ :=
  if |x| ≤ EPSILON then 0
  else
    rootGo next x n (MAX_ITERATIONS + 1) (if 0 ≤ x then 1 else -1)
      (next (x, n, if 0 ≤ x then 1 else -1)) 1

end Roots

namespace Polynom

lemma trimGo_canonical :
    ∀ (f : ℕ) (l : List ℚ), l ≠ [] → l.length ≤ f + 1 →
      canonicalP ⟨trimGo f l⟩ := by
  intro f
  induction f with
  | zero =>
      intro l hne hlen
      have h1 : l.length = 1 := by
        have := List.length_pos.mpr hne
        omega
      refine ⟨by simp [trimGo]; omega, ?_⟩
      intro h2
      simp [trimGo] at h2
      omega
  | succ f ih =>
      intro l hne hlen
      by_cases h : 1 < l.length ∧ l.getLast? = some 0
      · rw [show trimGo (f + 1) l = trimGo f l.dropLast by simp [trimGo, h]]
        apply ih
        · have : l.dropLast.length = l.length - 1 := List.length_dropLast l
          intro hnil
          rw [hnil] at this
          simp at this
          omega
        · have : l.dropLast.length = l.length - 1 := List.length_dropLast l
          omega
      · rw [show trimGo (f + 1) l = l by
          simp only [trimGo, ite_eq_right_iff]
          intro hc
          exact (h hc).elim]
        refine ⟨List.length_pos.mpr hne, ?_⟩
        intro h1 h2
        exact h ⟨h1, h2⟩

lemma trim_canonical (p : Polynom) (h : p.coeficients ≠ []) :
    canonicalP p.trim :=
  trimGo_canonical _ _ h (by omega)

lemma trimGo_of_canonical (f : ℕ) (l : List ℚ) (h : canonicalP ⟨l⟩) :
    trimGo f l = l := by
  cases f with
  | zero => rfl
  | succ f =>
      simp only [trimGo, ite_eq_right_iff]
      intro hc
      exact absurd hc.2 (h.2 hc.1)

lemma trim_of_canonical (p : Polynom) (h : canonicalP p) : p.trim = p := by
  unfold trim
  rw [trimGo_of_canonical _ _ h]

lemma add_def (a b : Polynom) : a + b = Polynom.add a b := rfl

lemma mul_def (a b : Polynom) : a * b = Polynom.mul a b := rfl

lemma foldl_length_invariant (step : List ℚ → ℕ → List ℚ)
    (h : ∀ acc i, (step acc i).length = acc.length) :
    ∀ (l : List ℕ) (acc : List ℚ), (l.foldl step acc).length = acc.length := by
  intro l
  induction l with
  | nil => intro acc; rfl
  | cons a t ih => intro acc; rw [List.foldl_cons, ih, h]

lemma getLast?_range_map (g : ℕ → ℚ) (n : ℕ) :
    ((List.range (n + 1)).map g).getLast? = some (g n) := by
  rw [List.range_succ, List.map_append]
  simp

lemma getLast?_eq_coeffAt (p : Polynom) (h : p.coeficients ≠ []) :
    p.coeficients.getLast? = some (p.coeffAt p.degree) := by
  have hl : 0 < p.coeficients.length := List.length_pos.mpr h
  rw [List.getLast?_eq_getElem?, List.getElem?_eq_getElem (by omega)]
  unfold coeffAt degree
  rw [List.getD_eq_getElem _ _ (by omega)]

lemma leading_ne_zero (p : Polynom) (hp : canonicalP p) (hd : 1 ≤ p.degree) :
    p.coeffAt p.degree ≠ 0 := by
  have hne : p.coeficients ≠ [] := by
    intro h
    have := hp.1
    rw [h] at this
    simp at this
  have hlen : 1 < p.coeficients.length := by
    unfold degree at hd
    omega
  have := hp.2 hlen
  rw [getLast?_eq_coeffAt p hne] at this
  intro h0
  exact this (by rw [h0])

lemma mul_length (a b : Polynom) (k : ℕ) :
    ((List.range (a.degree + 1)).foldl (fun acc i =>
      (List.range (b.degree + 1)).foldl (fun acc2 j =>
        acc2.set (i + j) (acc2.getD (i + j) 0 + a.coeffAt i * b.coeffAt j)) acc)
      ((single k).coeficients.set k 0)).length = k + 1 := by
  rw [foldl_length_invariant]
  · simp [single]
  · intro acc i
    rw [foldl_length_invariant]
    intro acc2 j
    exact List.length_set acc2 _ _

lemma getD_set_eq (l : List ℚ) (n : ℕ) (v : ℚ) (h : n < l.length) :
    (l.set n v).getD n 0 = v := by
  rw [List.getD_eq_getElem?_getD, List.getElem?_set_self h]
  rfl

lemma getD_set_ne (l : List ℚ) (n k : ℕ) (v : ℚ) (h : n ≠ k) :
    (l.set n v).getD k 0 = l.getD k 0 := by
  rw [List.getD_eq_getElem?_getD, List.getElem?_set_ne h,
    ← List.getD_eq_getElem?_getD]

lemma getD_replicate_zero (n k : ℕ) :
    (List.replicate n (0 : ℚ)).getD k 0 = 0 := by
  by_cases h : k < n
  · rw [List.getD_eq_getElem _ _ (by simpa using h), List.getElem_replicate]
  · rw [List.getD_eq_default _ _ (by simpa using h)]

lemma start_replicate (d : ℕ) :
    (single d).coeficients.set d 0 = List.replicate (d + 1) (0 : ℚ) := by
  apply List.ext_getElem
  · simp [single]
  · intro i h1 h2
    simp only [single, List.length_set, List.length_map, List.length_range,
      List.length_replicate] at h1 h2
    simp only [single]
    rw [List.getElem_set]
    simp only [List.getElem_map, List.getElem_range, List.getElem_replicate]
    split_ifs <;> first | rfl | omega

lemma inner_foldl_getD (a b : Polynom) (i : ℕ) :
    ∀ (m : ℕ) (acc : List ℚ), i + m ≤ acc.length → ∀ k : ℕ,
      ((List.range m).foldl (fun acc2 j =>
        acc2.set (i + j) (acc2.getD (i + j) 0 + a.coeffAt i * b.coeffAt j))
          acc).getD k 0
      = acc.getD k 0 +
          if i ≤ k ∧ k < i + m then a.coeffAt i * b.coeffAt (k - i) else 0 := by
  intro m
  induction m with
  | zero =>
      intro acc _ k
      rw [List.range_zero, List.foldl_nil, if_neg (by omega), add_zero]
  | succ m ih =>
      intro acc hlen k
      rw [List.range_succ, List.foldl_append, List.foldl_cons, List.foldl_nil]
      have hL : ((List.range m).foldl (fun acc2 j =>
          acc2.set (i + j) (acc2.getD (i + j) 0 + a.coeffAt i * b.coeffAt j))
            acc).length = acc.length :=
        foldl_length_invariant _ (fun acc2 j => List.length_set acc2 _ _) _ acc
      by_cases hk : k = i + m
      · subst hk
        rw [getD_set_eq _ _ _ (by rw [hL]; omega)]
        rw [ih acc (by omega) (i + m), if_neg (by omega), add_zero,
          if_pos (by omega)]
        rw [show i + m - i = m by omega]
      · rw [getD_set_ne _ _ _ _ (fun hh => hk hh.symm)]
        rw [ih acc (by omega) k]
        by_cases hc : i ≤ k ∧ k < i + m
        · rw [if_pos hc, if_pos (by omega)]
        · rw [if_neg hc, if_neg (by omega)]

lemma outer_foldl_getD (a b : Polynom) (m : ℕ) :
    ∀ (n : ℕ) (acc : List ℚ), (∀ i, i < n → i + m ≤ acc.length) → ∀ k : ℕ,
      ((List.range n).foldl (fun acc1 i =>
        (List.range m).foldl (fun acc2 j =>
          acc2.set (i + j) (acc2.getD (i + j) 0 + a.coeffAt i * b.coeffAt j))
            acc1) acc).getD k 0
      = acc.getD k 0 + ∑ i ∈ Finset.range n,
          (if i ≤ k ∧ k < i + m then a.coeffAt i * b.coeffAt (k - i) else 0) := by
  intro n
  induction n with
  | zero => intro acc _ k; simp
  | succ n ih =>
      intro acc hlen k
      rw [List.range_succ, List.foldl_append, List.foldl_cons, List.foldl_nil]
      have hL : ((List.range n).foldl (fun acc1 i =>
          (List.range m).foldl (fun acc2 j =>
            acc2.set (i + j) (acc2.getD (i + j) 0 + a.coeffAt i * b.coeffAt j))
              acc1) acc).length = acc.length := by
        apply foldl_length_invariant
        intro acc1 i
        exact foldl_length_invariant _
          (fun acc2 j => List.length_set acc2 _ _) _ acc1
      rw [inner_foldl_getD a b n m _ (by rw [hL]; exact hlen n (by omega)) k]
      rw [ih acc (fun i hi => hlen i (by omega)) k]
      rw [Finset.sum_range_succ, add_assoc]

lemma sum_ite_conv (c : ℕ → ℚ) (i k m : ℕ) :
    ∑ j ∈ Finset.range m, (if i + j = k then c j else 0)
      = if i ≤ k ∧ k < i + m then c (k - i) else 0 := by
  by_cases h : i ≤ k ∧ k < i + m
  · rw [if_pos h, Finset.sum_eq_single (k - i)]
    · rw [if_pos (by omega)]
    · intro j hj hne
      rw [if_neg]
      intro hij
      exact hne (by omega)
    · intro hmem
      exact absurd (Finset.mem_range.mpr (by omega)) hmem
  · rw [if_neg h]
    apply Finset.sum_eq_zero
    intro j hj
    have hjm := Finset.mem_range.mp hj
    rw [if_neg]
    intro hij
    exact h ⟨by omega, by omega⟩

lemma mul_list_eq_convSpec (a b : Polynom) :
    (List.range (a.degree + 1)).foldl (fun acc i =>
      (List.range (b.degree + 1)).foldl (fun acc2 j =>
        acc2.set (i + j) (acc2.getD (i + j) 0 + a.coeffAt i * b.coeffAt j)) acc)
      ((single (a.degree + b.degree)).coeficients.set (a.degree + b.degree) 0)
    = convSpec a b := by
  apply List.ext_getElem
  · rw [mul_length]
    simp [convSpec]
  · intro k h1 h2
    rw [← List.getD_eq_getElem _ (0 : ℚ) h1, start_replicate,
      outer_foldl_getD a b (b.degree + 1) (a.degree + 1) _ (by
        intro i hi
        rw [List.length_replicate]
        omega) k]
    rw [getD_replicate_zero, zero_add]
    simp only [convSpec, List.getElem_map, List.getElem_range]
    apply Finset.sum_congr rfl
    intro i _
    exact (sum_ite_conv (fun j => a.coeffAt i * b.coeffAt j) i k
      (b.degree + 1)).symm

lemma mul_eq_trim_convSpec (a b : Polynom) :
    a * b = Polynom.trim ⟨convSpec a b⟩ := by
  rw [mul_def]
  simp only [Polynom.mul]
  rw [mul_list_eq_convSpec]

lemma scale_canonical (p : Polynom) (x : ℚ) (hp : canonicalP p) (hx : x ≠ 0) :
    canonicalP (p.scale x) := by
  constructor
  · simpa [scale] using hp.1
  · intro hlen
    simp only [scale] at hlen ⊢
    rw [List.getLast?_map]
    have hne : p.coeficients ≠ [] := by
      intro h; rw [h] at hlen; simp at hlen
    rw [getLast?_eq_coeffAt p hne]
    have hlead : p.coeffAt p.degree ≠ 0 := by
      apply leading_ne_zero p hp
      unfold degree
      rw [List.length_map] at hlen
      omega
    intro hz
    exact mul_ne_zero hlead hx (Option.some.inj hz)

lemma add_canonical (a b : Polynom) (ha : canonicalP a) (hb : canonicalP b)
    (hcond : a.degree ≠ b.degree ∨ a.coeffAt a.degree + b.coeffAt b.degree ≠ 0 ∨
      (a.degree = 0 ∧ b.degree = 0)) :
    canonicalP (a + b) := by
  rw [add_def]
  unfold Polynom.add
  by_cases hab : b.degree ≤ a.degree
  · simp only [if_pos hab]
    constructor
    · simp
    · intro hlen
      simp only [List.length_map, List.length_range] at hlen
      rw [getLast?_range_map]
      simp only [ne_eq, Option.some.injEq]
      by_cases heq : a.degree ≤ b.degree
      · have hdeq : a.degree = b.degree := le_antisymm heq hab
        rw [if_pos heq]
        rcases hcond with h | h | h
        · exact absurd hdeq h
        · rw [← hdeq] at h
          intro hz
          exact h (by rw [add_comm] at hz; exact hz)
        · omega
      · rw [if_neg heq]
        exact leading_ne_zero a ha (by omega)
  · simp only [if_neg hab]
    push_neg at hab
    constructor
    · simp
    · intro hlen
      simp only [List.length_map, List.length_range] at hlen
      rw [getLast?_range_map]
      simp only [ne_eq, Option.some.injEq]
      rw [if_neg (by omega)]
      exact leading_ne_zero b hb (by omega)

lemma add_comm_poly (a b : Polynom) : a + b = b + a := by
  rw [add_def, add_def]
  simp only [Polynom.add]
  rcases lt_trichotomy a.degree b.degree with h | h | h
  · rw [if_neg (by omega), if_pos (by omega)]
  · rw [if_pos (by omega), if_pos (by omega)]
    dsimp only
    rw [h]
    congr 1
    apply List.map_congr_left
    intro i hi
    have hir := List.mem_range.mp hi
    rw [if_pos (by omega), if_pos (by omega), add_comm]
  · rw [if_pos (by omega), if_neg (by omega)]

lemma convSpec_comm (a b : Polynom) : convSpec a b = convSpec b a := by
  unfold convSpec
  rw [Nat.add_comm b.degree a.degree]
  apply List.map_congr_left
  intro k _
  rw [Finset.sum_comm]
  apply Finset.sum_congr rfl
  intro u _
  apply Finset.sum_congr rfl
  intro v _
  rw [Nat.add_comm v u, mul_comm (a.coeffAt v) (b.coeffAt u)]

lemma mul_comm_poly (a b : Polynom) : a * b = b * a := by
  rw [mul_eq_trim_convSpec, mul_eq_trim_convSpec, convSpec_comm]

lemma str_append_foldl (ss : List String) :
    ∀ s : String, ss.foldl (· ++ ·) s = s ++ ss.foldl (· ++ ·) "" := by
  induction ss with
  | nil => intro s; rw [List.foldl_nil, List.foldl_nil, String.append_empty]
  | cons a t ih =>
      intro s
      rw [List.foldl_cons, List.foldl_cons, ih (s ++ a), ih (("" : String) ++ a),
        show ("" : String) ++ a = a from rfl, String.append_assoc]

lemma join_cons (a : String) (l : List String) :
    String.join (a :: l) = a ++ String.join l := by
  show (a :: l).foldl (· ++ ·) "" = a ++ l.foldl (· ++ ·) ""
  rw [List.foldl_cons, str_append_foldl]
  rfl

lemma str_length_eq_zero (s : String) : s.length = 0 ↔ s = "" := by
  cases s with
  | mk data =>
      constructor
      · intro h
        have hd : data = [] := List.length_eq_zero.mp h
        rw [hd]
      · intro h
        rw [h]
        rfl

lemma sign_eq (p : Polynom) (i : ℕ) (h0 : p.coeffAt i ≠ 0) :
    (if i < p.degree ∧ 0 < p.coeffAt i then "+"
     else if p.coeffAt i < 0 then "-" else "")
    = (if p.coeffAt i < 0 then "-" else if i < p.degree then "+" else "") := by
  rcases lt_trichotomy (p.coeffAt i) 0 with hx | hx | hx
  · rw [if_neg (fun hc => absurd hc.2 (asymm hx)), if_pos hx, if_pos hx]
  · exact absurd hx h0
  · rw [if_neg (asymm hx)]
    by_cases hd : i < p.degree
    · rw [if_pos ⟨hd, hx⟩, if_pos hd, if_neg (asymm hx)]
    · rw [if_neg (fun hc => hd hc.1), if_neg (asymm hx), if_neg hd]

lemma mag_eq (p : Polynom) (i : ℕ) :
    (if ¬(|p.coeffAt i| = 1) ∨ i = 0 then ratStr |p.coeffAt i| else "")
    = (if |p.coeffAt i| = 1 ∧ 1 ≤ i then "" else ratStr |p.coeffAt i|) := by
  by_cases hA : |p.coeffAt i| = 1
  · by_cases hi : i = 0
    · rw [if_pos (Or.inr hi), if_neg (fun hc => absurd hc.2 (by omega))]
    · rw [if_neg (fun hc => hc.elim (fun hn => hn hA) hi),
        if_pos ⟨hA, by omega⟩]
  · rw [if_pos (Or.inl hA), if_neg (fun hc => hA hc.1)]

lemma xpart_eq (i : ℕ) :
    ((if 0 < i then "X" else "") ++ (if 1 < i then "^" ++ Nat.repr i else ""))
    = (if i = 0 then "" else if i = 1 then "X" else "X^" ++ Nat.repr i) := by
  match i with
  | 0 => rfl
  | 1 => rfl
  | (k + 2) =>
      rw [if_pos (by omega), if_pos (by omega), if_neg (by omega),
        if_neg (by omega), ← String.append_assoc]
      rfl

lemma fmt_step_eq (p : Polynom) (acc : String) (i : ℕ) :
    (if p.coeffAt i ≠ 0 then
       acc ++ (if i < p.degree ∧ 0 < p.coeffAt i then "+"
               else if p.coeffAt i < 0 then "-" else "")
           ++ (if ¬(|p.coeffAt i| = 1) ∨ i = 0 then ratStr |p.coeffAt i| else "")
           ++ (if 0 < i then "X" else "")
           ++ (if 1 < i then "^" ++ Nat.repr i else "")
     else acc) = acc ++ termSpec p i := by
  unfold termSpec
  dsimp only
  by_cases h0 : p.coeffAt i = 0
  · rw [if_neg (fun hc => hc h0), if_pos h0, String.append_empty]
  · rw [if_pos h0, if_neg h0, sign_eq p i h0, mag_eq p i]
    simp only [String.append_assoc]
    rw [xpart_eq i]

lemma foldl_terms (p : Polynom) :
    ∀ (l : List ℕ) (s : String),
      l.foldl (fun acc i =>
        if p.coeffAt i ≠ 0 then
          acc ++ (if i < p.degree ∧ 0 < p.coeffAt i then "+"
                  else if p.coeffAt i < 0 then "-" else "")
              ++ (if ¬(|p.coeffAt i| = 1) ∨ i = 0 then ratStr |p.coeffAt i|
                  else "")
              ++ (if 0 < i then "X" else "")
              ++ (if 1 < i then "^" ++ Nat.repr i else "")
        else acc) s
      = s ++ String.join (l.map (termSpec p)) := by
  intro l
  induction l with
  | nil => intro s; exact (String.append_empty s).symm
  | cons a t ih =>
      intro s
      rw [List.foldl_cons]
      have hstep := fmt_step_eq p s a
      rw [hstep, ih (s ++ termSpec p a), List.map_cons, join_cons,
        String.append_assoc]

lemma fmtP_eq_fmtSpec (p : Polynom) : fmtP p = fmtSpec p := by
  simp only [fmtP, fmtSpec]
  rw [foldl_terms p ((List.range (p.degree + 1)).reverse) ""]
  rw [show ("" : String) ++
      String.join (((List.range (p.degree + 1)).reverse).map (termSpec p))
      = String.join (((List.range (p.degree + 1)).reverse).map (termSpec p))
    from rfl]
  by_cases h :
      String.join (((List.range (p.degree + 1)).reverse).map (termSpec p)) = ""
  · rw [if_pos (by rw [h]; rfl), if_pos h]
  · rw [if_neg (fun hc => h ((str_length_eq_zero _).mp hc)), if_neg h]

end Polynom

/-- C3: multiplication is the convolution described by the spec — the
coefficient at index `k` of the product is the sum of `a[i] * b[j]` over
`i + j = k`, accumulated over a zero-filled sequence of length
`deg a + deg b + 1` and then re-trimmed to canonical form — and the two
sample identities hold. -/
theorem C3_mul_is_convolution :
    (∀ a b : Polynom, a * b = Polynom.trim ⟨Polynom.convSpec a b⟩) ∧
    Polynom.zero * Polynom.single 1 = Polynom.zero ∧
    Polynom.single 2 * Polynom.single 3 = Polynom.single 5 := by
  refine ⟨Polynom.mul_eq_trim_convSpec, ?_, ?_⟩
  · rw [Polynom.mul_eq_trim_convSpec,
      show Polynom.convSpec Polynom.zero (Polynom.single 1) = [0, 0] by
        norm_num [Polynom.convSpec, Polynom.degree, Polynom.coeffAt,
          Polynom.zero, Polynom.single, List.range_succ, Finset.sum_range_succ]]
    norm_num [Polynom.trim, Polynom.trimGo, Polynom.zero]
  · rw [Polynom.mul_eq_trim_convSpec,
      show Polynom.convSpec (Polynom.single 2) (Polynom.single 3)
          = [0, 0, 0, 0, 0, 1] by
        norm_num [Polynom.convSpec, Polynom.degree, Polynom.coeffAt,
          Polynom.single, List.range_succ, Finset.sum_range_succ]]
    norm_num [Polynom.trim, Polynom.trimGo, Polynom.single, List.range_succ]

/-- C9: addition and multiplication of canonical polynomials are
commutative. -/
theorem C9_add_mul_commutative :
    ∀ a b : Polynom, Polynom.canonicalP a → Polynom.canonicalP b →
      a + b = b + a ∧ a * b = b * a :=
  fun a b _ _ => ⟨Polynom.add_comm_poly a b, Polynom.mul_comm_poly a b⟩

/-- Witness for C9 at the canonical polynomials `0` and `X`. -/
theorem C9_witness :
    Polynom.zero + Polynom.single 1 = Polynom.single 1 + Polynom.zero ∧
      Polynom.zero * Polynom.single 1 = Polynom.single 1 * Polynom.zero :=
  C9_add_mul_commutative Polynom.zero (Polynom.single 1)
    (by simp [Polynom.canonicalP, Polynom.zero])
    (by simp [Polynom.canonicalP, Polynom.single, List.range_succ])

/-- C7: constructing a polynomial from an explicit coefficient list fails
fast exactly when the list is empty or its last element is exactly zero, and
on success it stores the given coefficients unchanged — no normalization. -/
theorem C7_fromCoefficients_fails_fast_exactly :
    (∀ l : List ℚ,
        Polynom.fromCoefficients l = none ↔ l = [] ∨ l.getLast? = some 0) ∧
    (∀ (l : List ℚ) (p : Polynom),
        Polynom.fromCoefficients l = some p → p.coeficients = l) := by
  constructor
  · intro l
    by_cases h : 0 < l.length ∧ l.getLast? ≠ some 0
    · simp only [Polynom.fromCoefficients, if_pos h]
      simp only [reduceCtorEq, false_iff]
      push_neg
      exact ⟨List.length_pos.mp h.1, h.2⟩
    · simp only [Polynom.fromCoefficients, if_neg h, true_iff]
      push_neg at h
      by_cases hl : l = []
      · exact Or.inl hl
      · exact Or.inr (h (List.length_pos.mpr hl))
  · intro l p h
    by_cases hc : 0 < l.length ∧ l.getLast? ≠ some 0
    · simp only [Polynom.fromCoefficients, if_pos hc, Option.some.injEq] at h
      rw [← h]
    · simp [Polynom.fromCoefficients, if_neg hc] at h

/-- Witness for C7 at the concrete list `[1]`. -/
theorem C7_witness : (Polynom.mk [(1 : ℚ)]).coeficients = [1] :=
  C7_fromCoefficients_fails_fast_exactly.2 [1] ⟨[1]⟩ (by
    simp [Polynom.fromCoefficients])

/-- C10: equality of polynomials is exact structural comparison of the stored
coefficient lists, and since `scale` (the source's `by`) does not re-trim,
scaling a positive-degree polynomial by `0` is NOT equal to `zero()`. -/
theorem C10_structural_equality :
    (∀ a b : Polynom, a = b ↔ a.coeficients = b.coeficients) ∧
    (∀ p : Polynom, 1 ≤ p.degree → p.scale 0 ≠ Polynom.zero) := by
  constructor
  · intro a b
    cases a; cases b; simp
  · intro p hp hEq
    have hlen : (p.scale 0).coeficients.length = p.coeficients.length := by
      simp [Polynom.scale]
    rw [hEq] at hlen
    simp [Polynom.zero] at hlen
    unfold Polynom.degree at hp
    omega

/-- C2 as frozen is false: `by`/`scale` does not re-trim, so scaling `X` by
`0` yields `[0, 0]`, and `+` does not re-trim, so `X + (-1)·X` yields
`[0, 0]` as well — both of length `2` with last coefficient `0`. -/
theorem C2_counterexample :
    ¬ Polynom.canonicalP ((Polynom.single 1).scale 0) ∧
    ¬ Polynom.canonicalP (Polynom.single 1 + (Polynom.single 1).scale (-1)) := by
  constructor
  · intro h
    have := h.2 (by norm_num [Polynom.single, Polynom.scale, List.range_succ])
    apply this
    norm_num [Polynom.single, Polynom.scale, List.range_succ]
  · intro h
    have := h.2 (by
      norm_num [Polynom.add_def, Polynom.add, Polynom.single, Polynom.scale,
        Polynom.degree, List.range_succ])
    apply this
    norm_num [Polynom.add_def, Polynom.add, Polynom.single, Polynom.scale,
      Polynom.degree, Polynom.coeffAt, List.range_succ]

/-- C2 (amended): values produced by the factories (`zero`, `single`,
`initialize` on a valid list) and by `set_at`, `plus` and `*` are always in
canonical form; `by`/`scale` preserves canonical form for a non-zero scalar
(it does not re-trim, so scaling a positive-degree polynomial by `0` breaks
the invariant), and `+` preserves it unless the operands have equal positive
degree and their leading coefficients cancel (it does not re-trim either). -/
theorem C2_canonical_form_amended :
    Polynom.canonicalP Polynom.zero ∧
    (∀ n : ℕ, Polynom.canonicalP (Polynom.single n)) ∧
    (∀ (l : List ℚ) (p : Polynom),
      Polynom.fromCoefficients l = some p → Polynom.canonicalP p) ∧
    (∀ (p : Polynom) (i : ℕ) (v : ℚ),
      Polynom.canonicalP p → Polynom.canonicalP (p.set_at i v)) ∧
    (∀ (p : Polynom) (x : ℚ),
      Polynom.canonicalP p → Polynom.canonicalP (p.plus x)) ∧
    (∀ (p : Polynom) (x : ℚ),
      Polynom.canonicalP p → x ≠ 0 → Polynom.canonicalP (p.scale x)) ∧
    (∀ a b : Polynom, Polynom.canonicalP a → Polynom.canonicalP b →
      (a.degree ≠ b.degree ∨ a.coeffAt a.degree + b.coeffAt b.degree ≠ 0 ∨
        (a.degree = 0 ∧ b.degree = 0)) →
      Polynom.canonicalP (a + b)) ∧
    (∀ a b : Polynom, Polynom.canonicalP a → Polynom.canonicalP b →
      Polynom.canonicalP (a * b)) := by
  refine ⟨?_, ?_, ?_, ?_, ?_, ?_, ?_, ?_⟩
  · exact ⟨by simp [Polynom.zero], by simp [Polynom.zero]⟩
  · intro n
    refine ⟨by simp [Polynom.single], ?_⟩
    intro _
    rw [show (Polynom.single n).coeficients =
        (List.range (n + 1)).map (fun i => if i < n then (0 : ℚ) else 1) from rfl]
    rw [Polynom.getLast?_range_map]
    simp
  · intro l p h
    by_cases hc : 0 < l.length ∧ l.getLast? ≠ some 0
    · simp only [Polynom.fromCoefficients, if_pos hc, Option.some.injEq] at h
      rw [← h]
      exact ⟨hc.1, fun _ => hc.2⟩
    · simp [Polynom.fromCoefficients, if_neg hc] at h
  · intro p i v hp
    apply Polynom.trim_canonical
    have : (p.coeficients.set i v).length = p.coeficients.length :=
      List.length_set _ _ _
    intro hnil
    dsimp only at hnil
    rw [hnil] at this
    simp at this
    have := hp.1
    omega
  · intro p x hp
    apply Polynom.trim_canonical
    have : (p.coeficients.map (fun c => c + x)).length = p.coeficients.length :=
      List.length_map _ _
    intro hnil
    dsimp only at hnil
    rw [hnil] at this
    simp at this
    have := hp.1
    omega
  · exact Polynom.scale_canonical
  · exact Polynom.add_canonical
  · intro a b _ _
    rw [Polynom.mul_def]
    unfold Polynom.mul
    apply Polynom.trim_canonical
    have := Polynom.mul_length a b (a.degree + b.degree)
    intro hnil
    dsimp only at hnil
    rw [hnil] at this
    simp at this

/-- Witness for C2 (amended): scaling `X` by the non-zero scalar `2` keeps
canonical form. -/
theorem C2_witness : Polynom.canonicalP ((Polynom.single 1).scale 2) :=
  C2_canonical_form_amended.2.2.2.2.2.1 (Polynom.single 1) 2
    (by simp [Polynom.canonicalP, Polynom.single, List.range_succ])
    two_ne_zero

/-- Witness for C10 at the concrete polynomial `X`. -/
theorem C10_witness :
    1 ≤ (Polynom.single 1).degree ∧
      (Polynom.single 1).scale 0 ≠ Polynom.zero := by
  refine ⟨?_, C10_structural_equality.2 (Polynom.single 1) ?_⟩ <;>
    simp [Polynom.single, Polynom.degree]

set_option maxRecDepth 10000 in
set_option maxHeartbeats 1000000 in
/-- C8: the Display rendering follows the spec's convention — terms highest
degree first, zero coefficients skipped, `+` on non-leading positive terms,
`-` on negative terms, magnitude `1` omitted on terms of positive degree but
printed on the constant, `X` for degree 1 and `X^k` for higher degrees, and
`0` for the zero polynomial — and the four concrete examples render as
stated. -/
theorem C8_formatting :
    (∀ p : Polynom, Polynom.canonicalP p → Polynom.fmtP p = Polynom.fmtSpec p) ∧
    Polynom.fmtP ⟨[-1, -2, 0, 0, 3, -4]⟩ = "-4X^5+3X^4-2X-1" ∧
    Polynom.fmtP Polynom.zero = "0" ∧
    Polynom.fmtP (Polynom.single 2) = "X^2" ∧
    Polynom.fmtP ((((Polynom.single 2).scale 2).plus (-1)).scale (-(1/2)))
      = "-0.5X^2+0.5X+0.5" := by
  refine ⟨fun p _ => Polynom.fmtP_eq_fmtSpec p, ?_, ?_, ?_, ?_⟩
  · norm_num [Polynom.fmtP, Polynom.degree, Polynom.coeffAt, Polynom.ratStr,
      List.range_succ]
    rfl
  · norm_num [Polynom.fmtP, Polynom.degree, Polynom.coeffAt, Polynom.zero]
  · norm_num [Polynom.fmtP, Polynom.degree, Polynom.coeffAt, Polynom.single,
      List.range_succ]
    rfl
  · rw [show (((Polynom.single 2).scale 2).plus (-1)).scale (-(1/2))
        = ⟨[1/2, 1/2, -(1/2)]⟩ by
      norm_num [Polynom.single, Polynom.scale, Polynom.plus, Polynom.trim,
        Polynom.trimGo, List.range_succ]]
    norm_num [Polynom.fmtP, Polynom.degree, Polynom.coeffAt, Polynom.ratStr,
      Polynom.fracDigits, List.range_succ,
      show |(1/2 : ℚ)| = 1/2 by norm_num,
      show |(-(1/2) : ℚ)| = 1/2 by norm_num]
    rfl

/-- Witness for C8 at the canonical polynomial `0`. -/
theorem C8_witness : Polynom.fmtP Polynom.zero = Polynom.fmtSpec Polynom.zero :=
  C8_formatting.1 Polynom.zero (by simp [Polynom.canonicalP, Polynom.zero])

namespace Roots

lemma powerGo_eq (f : ℕ) : ∀ (count : ℕ) (result y : ℚ), count < 2 ^ f →
    powerGo f result y count = result * y ^ count := by
  induction f with
  | zero =>
      intro count result y h
      have h0 : count = 0 := by simpa using h
      subst h0
      simp [powerGo]
  | succ f ih =>
      intro count result y h
      by_cases h0 : count = 0
      · subst h0
        simp [powerGo]
      · rw [show powerGo (f + 1) result y count
            = powerGo f (if count % 2 = 1 then result * y else result) (y * y)
                (count / 2) by simp [powerGo, h0]]
        have h2 : (2 : ℕ) ^ (f + 1) = 2 ^ f * 2 := pow_succ 2 f
        rw [ih (count / 2) _ (y * y) (by omega)]
        have hyy : (y * y) ^ (count / 2) = y ^ (2 * (count / 2)) := by
          rw [pow_mul, pow_two]
        rcases Nat.mod_two_eq_zero_or_one count with hm | hm
        · rw [if_neg (by omega), hyy,
            show 2 * (count / 2) = count by omega]
        · rw [if_pos hm, hyy, mul_assoc, ← pow_succ',
            show 2 * (count / 2) + 1 = count by omega]

lemma power_eq_pow (x : ℚ) (n : ℕ) : power x n = x ^ n := by
  rw [power, powerGo_eq n n 1 x (Nat.lt_two_pow n), one_mul]

lemma rootGo_eq_seq (next : ℚ × ℕ × ℚ → ℚ) (x : ℚ) (n : ℕ) :
    ∀ (f k i : ℕ), MAX_ITERATIONS + 1 ≤ i + f →
      ∃ j, j ≤ MAX_ITERATIONS + 1 - i ∧
        rootGo next x n f (rootSeq next x n k) (rootSeq next x n (k + 1)) i
          = rootSeq next x n (k + 1 + j) := by
  intro f
  induction f with
  | zero =>
      intro k i hi
      exact ⟨0, by omega, rfl⟩
  | succ f ih =>
      intro k i hi
      by_cases hc : EPSILON ≤
          |(rootSeq next x n (k + 1) - rootSeq next x n k) / rootSeq next x n k|
          ∧ i ≤ MAX_ITERATIONS
      · rw [show rootGo next x n (f + 1) (rootSeq next x n k)
            (rootSeq next x n (k + 1)) i
            = rootGo next x n f (rootSeq next x n (k + 1))
                (next (x, n, rootSeq next x n (k + 1))) (i + 1) by
          simp [rootGo, hc]]
        obtain ⟨j, hj, heq⟩ := ih (k + 1) (i + 1) (by omega)
        refine ⟨j + 1, by omega, ?_⟩
        have hstep : next (x, n, rootSeq next x n (k + 1))
            = rootSeq next x n (k + 1 + 1) := rfl
        rw [hstep, heq]
        congr 1
        omega
      · refine ⟨0, by omega, ?_⟩
        simp [rootGo, hc]

end Roots

/-- C5: `power` computes the exact integer power — `power x n = x ^ n` for
every `x` and every natural `n`; in particular `power x 0 = 1` for every
`x` (including `x = 0`) and `power 2 4 = 16`. -/
theorem C5_power_correct :
    (∀ (x : ℚ) (n : ℕ), Roots.power x n = x ^ n) ∧
    (∀ x : ℚ, Roots.power x 0 = 1) ∧
    Roots.power 2 4 = 16 := by
  refine ⟨Roots.power_eq_pow, fun x => ?_, ?_⟩
  · rw [Roots.power_eq_pow, pow_zero]
  · rw [Roots.power_eq_pow]
    norm_num

/-- C6: for `|x|` at most `EPSILON`, `root` returns exactly `0` whatever the
degree and whatever the step function — the early return fires before any
step-function call, so the result does not depend on `next` at all. -/
theorem C6_root_small_input :
    ∀ (x : ℚ) (n : ℕ) (next : ℚ × ℕ × ℚ → ℚ),
      |x| ≤ Roots.EPSILON → Roots.root x n next = 0 := by
  intro x n next h
  simp only [Roots.root]
  rw [if_pos h]

/-- Witness for C6 at `x = 0`. -/
theorem C6_witness : Roots.root 0 2 (fun t => t.2.2) = 0 :=
  C6_root_small_input 0 2 (fun t => t.2.2) (by simp [Roots.EPSILON])

/-- C4: for every input, degree and step function, `root` terminates — when
the early return does not fire, the loop body runs some `m ≤ MAX_ITERATIONS
= 1000000` further times past the initial step call, and the returned value
is simply the last computed estimate (the `(m+1)`-st element of the
iteration sequence), with no error or convergence-failure signal. -/
theorem C4_iteration_bound :
    ∀ (x : ℚ) (n : ℕ) (next : ℚ × ℕ × ℚ → ℚ), Roots.EPSILON < |x| →
      ∃ m, m ≤ Roots.MAX_ITERATIONS ∧
        Roots.root x n next = Roots.rootSeq next x n (m + 1) := by
  intro x n next h
  obtain ⟨j, hj, heq⟩ :=
    Roots.rootGo_eq_seq next x n (Roots.MAX_ITERATIONS + 1) 0 1 (by omega)
  refine ⟨j, by omega, ?_⟩
  simp only [Roots.root]
  rw [if_neg (not_le.mpr h)]
  have h0 : (if 0 ≤ x then (1 : ℚ) else -1) = Roots.rootSeq next x n 0 := rfl
  rw [h0]
  have h1 : next (x, n, Roots.rootSeq next x n 0)
      = Roots.rootSeq next x n (0 + 1) := rfl
  rw [h1, heq]
  congr 1
  omega

/-- Witness for C4 at `x = 4`, `n = 2` and the constant-zero step. -/
theorem C4_witness :
    ∃ m, m ≤ Roots.MAX_ITERATIONS ∧
      Roots.root 4 2 (fun _ => 0) = Roots.rootSeq (fun _ => 0) 4 2 (m + 1) :=
  C4_iteration_bound 4 2 (fun _ => 0) (by norm_num [Roots.EPSILON])
